import Mathlib

/-!
Verification of the naive GEMM CUDA kernel and its test harness
(`gemm_modal.py`).

The device scalar type (C `float`) is modelled by the rationals; on the
integer-valued fixture of the harness every float operation is exact, so
the model computes the same values.  A device buffer is a flat `List ℚ`;
a read outside the buffer yields the default value `0` and a write
outside the buffer is a no-op (the `Checked` variants below make
out-of-bounds accesses observable instead, returning `none`).
A CUDA thread grid is modelled as a list of `(row, col)` coordinates and
a launch as a left fold of the per-coordinate kernel body over that
list; order-invariance of the fold is proved below, so the sequential
model is faithful to the unordered parallel execution.
-/

/-- The scalar arguments of one launch of `gemm_kernel`
(`m, n, k, alpha, beta, transposeA, transposeB`). -/
structure GemmParams where
  m : Nat
  n : Nat
  k : Nat
  alpha : ℚ
  beta : ℚ
  transposeA : Bool
  transposeB : Bool

/-- The `a_val` read of one contraction step of `gemm_kernel`:
`A[q * m + row]` when `transposeA`, else `A[row * k + q]`. -/
def a_val (p : GemmParams) (A : List ℚ) (row q : Nat) : ℚ :=
  if p.transposeA then A.getD (q * p.m + row) 0 else A.getD (row * p.k + q) 0

/-- The `b_val` read of one contraction step of `gemm_kernel`:
`B[col * k + q]` when `transposeB`, else `B[q * n + col]`. -/
def b_val (p : GemmParams) (B : List ℚ) (col q : Nat) : ℚ :=
  if p.transposeB then B.getD (col * p.k + q) 0 else B.getD (q * p.n + col) 0

/-- The accumulation loop of `gemm_kernel`:
`for (q = 0; q < k; ++q) sum += a_val * b_val;` starting from `sum = 0`. -/
def gemmSum (p : GemmParams) (A B : List ℚ) (row col : Nat) : ℚ :=
  (List.range p.k).foldl (fun sum q => sum + a_val p A row q * b_val p B col q) 0

/-- The body of `gemm_kernel` for the single thread at coordinate
`(row, col)`: if `row < m && col < n`, accumulate and write
`C[row * n + col] = alpha * sum + beta * C[row * n + col]`; otherwise do
nothing. -/
def gemm_kernel (p : GemmParams) (A B : List ℚ) (row col : Nat) (C : List ℚ) : List ℚ :=
  if row < p.m ∧ col < p.n then
    C.set (row * p.n + col)
      (p.alpha * gemmSum p A B row col + p.beta * C.getD (row * p.n + col) 0)
  else C

/-- Sequential execution of the per-coordinate kernel tasks in the given
order (the model of one kernel launch over a list of thread
coordinates). -/
def runTasks (p : GemmParams) (A B : List ℚ) (coords : List (Nat × Nat)) (C : List ℚ) :
    List ℚ :=
  coords.foldl (fun acc rc => gemm_kernel p A B rc.1 rc.2 acc) C

/-- All `(row, col)` coordinates of an `M × N` grid, row-major. -/
def gridCoords (M N : Nat) : List (Nat × Nat) :=
  (List.range M).product (List.range N)

/-- The thread coordinates actually launched by `run_gemm`:
`block = (16, 16)` and `grid = ((n + 15) / 16, (m + 15) / 16)`, so the
thread grid covers `(m + 15) / 16 * 16` rows and `(n + 15) / 16 * 16`
columns — generally more than `m × n`. -/
def launchedCoords (m n : Nat) : List (Nat × Nat) :=
  gridCoords ((m + 16 - 1) / 16 * 16) ((n + 16 - 1) / 16 * 16)

/-- The kernel launch performed inside `run_gemm` (including the
trailing synchronize and read-back): every launched thread coordinate
runs once on the supplied buffers.  No validation of the buffer lengths
against `m, n, k` happens anywhere on this path. -/
def kernelLaunch (p : GemmParams) (A B C : List ℚ) : List ℚ :=
  runTasks p A B (launchedCoords p.m p.n) C

/-- Fixture matrix `A_host = [[1,2],[3,4]]` of `test_gemm`, flattened
row-major. -/
def A_host : List ℚ := [1, 2, 3, 4]

/-- Fixture matrix `B_host = [[5,6],[7,8]]` of `test_gemm`, flattened
row-major. -/
def B_host : List ℚ := [5, 6, 7, 8]

/-- The fixed parameters of `test_gemm`: `m = n = k = 2`, `alpha = 1`,
`beta = 0`, with the two transpose flags of the configuration. -/
def fixtureParams (transA transB : Bool) : GemmParams :=
  { m := 2, n := 2, k := 2, alpha := 1, beta := 0,
    transposeA := transA, transposeB := transB }

/-- Function `run_gemm(transA, transB)` of `test_gemm`: zero-initialise
`C_out` (shape `m × n`), launch the kernel over the full 16×16 thread
grid, synchronize, and read `C_out` back. -/
def run_gemm (transA transB : Bool) : List ℚ :=
  kernelLaunch (fixtureParams transA transB) A_host B_host (List.replicate (2 * 2) 0)

/-- Expected matrix for `(transposeA, transposeB) = (false, false)`:
`A·B = [[19,22],[43,50]]`. -/
def expected_AB : List ℚ := [19, 22, 43, 50]

/-- Expected matrix for `(true, false)`: `Aᵀ·B = [[26,30],[38,44]]`. -/
def expected_ATB : List ℚ := [26, 30, 38, 44]

/-- Expected matrix for `(false, true)`: `A·Bᵀ = [[17,23],[39,53]]`. -/
def expected_ABT : List ℚ := [17, 23, 39, 53]

/-- Expected matrix for `(true, true)`: `Aᵀ·Bᵀ = [[23,31],[34,46]]`. -/
def expected_ATBT : List ℚ := [23, 31, 34, 46]

/-- Value `np.abs(actual - expected).max()` over the flattened matrices. -/
def maxAbsDiff (xs ys : List ℚ) : ℚ :=
  (List.zipWith (fun a b => |a - b|) xs ys).foldl max 0

/-- The comparison tolerance `1e-4` of the harness. -/
def tol : ℚ := 1 / 10000

/-- What `test_gemm` prints for one configuration: the kernel output,
the expected matrix and their max absolute difference. -/
structure ConfigReport where
  output : List ℚ
  expect : List ℚ
  maxDiff : ℚ

/-- The report of one configuration of `test_gemm`. -/
def configReport (transA transB : Bool) (e : List ℚ) : ConfigReport :=
  ⟨run_gemm transA transB, e, maxAbsDiff (run_gemm transA transB) e⟩

/-- The aggregate verdict of `test_gemm`:
`all(d < 1e-4 for d in [diff_ab, diff_atb, diff_abt, diff_atbt])`. -/
def allSmallTestsPass (diffs : List ℚ) : Bool :=
  diffs.all fun d => decide (d < tol)

/-- The whole harness `test_gemm`: the four per-configuration reports,
in source order, followed by the aggregate PASS (`true`) / FAIL
(`false`) verdict computed from all four max differences. -/
def test_gemm : List ConfigReport × Bool :=
  let r1 := configReport false false expected_AB
  let r2 := configReport true false expected_ATB
  let r3 := configReport false true expected_ABT
  let r4 := configReport true true expected_ATBT
  ([r1, r2, r3, r4], allSmallTestsPass [r1.maxDiff, r2.maxDiff, r3.maxDiff, r4.maxDiff])

/-- The accumulation loop of `gemm_kernel` with fallible indexing: any
out-of-bounds read of `A` or `B` yields `none`. -/
def gemmSumChecked (p : GemmParams) (A B : List ℚ) (row col : Nat) : Option ℚ :=
  (List.range p.k).foldl
    (fun acc q =>
      acc.bind fun s =>
        (A[if p.transposeA then q * p.m + row else row * p.k + q]?).bind fun a =>
          (B[if p.transposeB then col * p.k + q else q * p.n + col]?).bind fun b =>
            some (s + a * b))
    (some 0)

/-- The body of `gemm_kernel` with fallible indexing: any out-of-bounds
access of `A`, `B` or `C` yields `none`. -/
def gemm_kernelChecked (p : GemmParams) (A B : List ℚ) (row col : Nat) (C : List ℚ) :
    Option (List ℚ) :=
  if row < p.m ∧ col < p.n then
    (gemmSumChecked p A B row col).bind fun s =>
      (C[row * p.n + col]?).bind fun old =>
        some (C.set (row * p.n + col) (p.alpha * s + p.beta * old))
  else some C

/-- The `(false, false)` fixture parameters, used in concrete witnesses. -/
def pFF : GemmParams := fixtureParams false false

/-! ### General helper lemmas about buffers and flat indices -/

/-- Setting one buffer cell leaves reads of every other cell unchanged. -/
theorem getD_set_ne {i j : Nat} (h : i ≠ j) (C : List ℚ) (v d : ℚ) :
    (C.set i v).getD j d = C.getD j d := by
  rcases Nat.lt_or_ge j C.length with hj | hj
  · rw [List.getD_eq_getElem _ _ (by simpa using hj), List.getD_eq_getElem _ _ hj]
    exact List.getElem_set_ne h _
  · rw [List.getD_eq_default _ _ (by simpa using hj), List.getD_eq_default _ _ hj]

/-- Reading back an in-bounds cell just written. -/
theorem getD_set_self {i : Nat} (C : List ℚ) (v d : ℚ) (h : i < C.length) :
    (C.set i v).getD i d = v := by
  rw [List.getD_eq_getElem _ _ (by simpa using h)]
  exact List.getElem_set_self _

/-- An in-range coordinate's flat index lies inside the `m × n` output
buffer. -/
theorem flat_lt {m n r c : Nat} (hr : r < m) (hc : c < n) : r * n + c < m * n := by
  calc r * n + c < r * n + n := Nat.add_lt_add_left hc _
    _ = (r + 1) * n := (Nat.succ_mul r n).symm
    _ ≤ m * n := Nat.mul_le_mul_right n hr

/-- Row-major flattening is injective on in-range column indices. -/
theorem flat_inj {n r₁ c₁ r₂ c₂ : Nat} (h₁ : c₁ < n) (h₂ : c₂ < n)
    (h : r₁ * n + c₁ = r₂ * n + c₂) : r₁ = r₂ ∧ c₁ = c₂ := by
  have hn : 0 < n := Nat.lt_of_le_of_lt (Nat.zero_le c₁) h₁
  have hdiv : ∀ r c : Nat, c < n → (r * n + c) / n = r := by
    intro r c hc
    rw [Nat.mul_comm r n, Nat.mul_add_div hn, Nat.div_eq_of_lt hc, Nat.add_zero]
  have hmod : ∀ r c : Nat, c < n → (r * n + c) % n = c := by
    intro r c hc
    rw [Nat.mul_comm r n, Nat.mul_add_mod, Nat.mod_eq_of_lt hc]
  constructor
  · rw [← hdiv r₁ c₁ h₁, ← hdiv r₂ c₂ h₂, h]
  · rw [← hmod r₁ c₁ h₁, ← hmod r₂ c₂ h₂, h]

/-- Membership in the coordinate grid. -/
theorem mem_gridCoords {M N : Nat} {rc : Nat × Nat} :
    rc ∈ gridCoords M N ↔ rc.1 < M ∧ rc.2 < N := by
  cases rc with
  | mk r c => simp [gridCoords, List.product]

/-- The coordinate grid has no duplicate coordinates. -/
theorem nodup_gridCoords (M N : Nat) : (gridCoords M N).Nodup :=
  List.Nodup.product (List.nodup_range M) (List.nodup_range N)

/-- Splitting a left fold of additions over `List.range` into a
`Finset` sum. -/
theorem foldl_range_add (g : Nat → ℚ) (s : ℚ) (k : Nat) :
    (List.range k).foldl (fun acc q => acc + g q) s = s + ∑ q ∈ Finset.range k, g q := by
  induction k with
  | zero => simp
  | succ k ih =>
      rw [List.range_succ, List.foldl_append, ih, Finset.sum_range_succ, List.foldl_cons,
        List.foldl_nil, add_assoc]

/-- Read `a_val`, with the transposition choice moved into the index. -/
theorem a_val_eq_getD (p : GemmParams) (A : List ℚ) (row q : Nat) :
    a_val p A row q = A.getD (if p.transposeA then q * p.m + row else row * p.k + q) 0 := by
  unfold a_val
  by_cases h : p.transposeA <;> simp [h]

/-- Read `b_val`, with the transposition choice moved into the index. -/
theorem b_val_eq_getD (p : GemmParams) (B : List ℚ) (col q : Nat) :
    b_val p B col q = B.getD (if p.transposeB then col * p.k + q else q * p.n + col) 0 := by
  unfold b_val
  by_cases h : p.transposeB <;> simp [h]

/-! ### Structural lemmas about the kernel body and task execution -/

/-- A skipped (out-of-range) thread leaves the buffer untouched. -/
theorem gemm_kernel_of_neg {p : GemmParams} {row col : Nat} (A B C : List ℚ)
    (h : ¬(row < p.m ∧ col < p.n)) : gemm_kernel p A B row col C = C := by
  unfold gemm_kernel
  exact if_neg h

/-- An in-range thread performs exactly its read-modify-write. -/
theorem gemm_kernel_of_pos {p : GemmParams} {row col : Nat} (A B C : List ℚ)
    (h : row < p.m ∧ col < p.n) :
    gemm_kernel p A B row col C =
      C.set (row * p.n + col)
        (p.alpha * gemmSum p A B row col + p.beta * C.getD (row * p.n + col) 0) := by
  unfold gemm_kernel
  exact if_pos h

/-- One thread preserves the buffer length. -/
theorem gemm_kernel_length (p : GemmParams) (A B : List ℚ) (row col : Nat) (C : List ℚ) :
    (gemm_kernel p A B row col C).length = C.length := by
  unfold gemm_kernel
  split <;> simp

/-- Running any list of tasks preserves the buffer length. -/
theorem runTasks_length (p : GemmParams) (A B : List ℚ) (coords : List (Nat × Nat))
    (C : List ℚ) : (runTasks p A B coords C).length = C.length := by
  induction coords generalizing C with
  | nil => rfl
  | cons hd tl ih =>
      have step : runTasks p A B (hd :: tl) C
          = runTasks p A B tl (gemm_kernel p A B hd.1 hd.2 C) := rfl
      rw [step, ih, gemm_kernel_length]

/-- One thread leaves every cell other than its own target unchanged. -/
theorem gemm_kernel_getD_ne (p : GemmParams) (A B C : List ℚ) (row col j : Nat)
    (h : ¬(row < p.m ∧ col < p.n) ∨ j ≠ row * p.n + col) :
    (gemm_kernel p A B row col C).getD j 0 = C.getD j 0 := by
  by_cases hg : row < p.m ∧ col < p.n
  · rw [gemm_kernel_of_pos A B C hg]
    rcases h with h | h
    · exact absurd hg h
    · exact getD_set_ne (Ne.symm h) _ _ _
  · rw [gemm_kernel_of_neg A B C hg]

/-- Frame property of a task list: a cell that is no in-range task's
target is unchanged by the whole run. -/
theorem runTasks_getD_frame (p : GemmParams) (A B : List ℚ) (coords : List (Nat × Nat))
    (C : List ℚ) (j : Nat)
    (h : ∀ rc ∈ coords, rc.1 < p.m → rc.2 < p.n → j ≠ rc.1 * p.n + rc.2) :
    (runTasks p A B coords C).getD j 0 = C.getD j 0 := by
  induction coords generalizing C with
  | nil => rfl
  | cons hd tl ih =>
      have step : runTasks p A B (hd :: tl) C
          = runTasks p A B tl (gemm_kernel p A B hd.1 hd.2 C) := rfl
      rw [step, ih _ fun rc hrc => h rc (List.mem_cons_of_mem _ hrc)]
      apply gemm_kernel_getD_ne
      by_cases hg : hd.1 < p.m ∧ hd.2 < p.n
      · exact Or.inr (h hd (List.mem_cons_self _ _) hg.1 hg.2)
      · exact Or.inl hg

/-- Write property of a task list without duplicate coordinates: the
cell of an in-range listed coordinate holds exactly
`alpha * sum + beta * old` after the whole run. -/
theorem runTasks_getD_write (p : GemmParams) (A B : List ℚ) (coords : List (Nat × Nat))
    (C : List ℚ) (row col : Nat) (hnd : coords.Nodup) (hmem : (row, col) ∈ coords)
    (hr : row < p.m) (hc : col < p.n) (hj : row * p.n + col < C.length) :
    (runTasks p A B coords C).getD (row * p.n + col) 0 =
      p.alpha * gemmSum p A B row col + p.beta * C.getD (row * p.n + col) 0 := by
  induction coords generalizing C with
  | nil => cases hmem
  | cons hd tl ih =>
      obtain ⟨a, b⟩ := hd
      have step : runTasks p A B ((a, b) :: tl) C
          = runTasks p A B tl (gemm_kernel p A B a b C) := rfl
      rw [step]
      rcases List.mem_cons.1 hmem with heq | hmem'
      · -- the head task is the coordinate in question
        injection heq with e1 e2
        subst e1
        subst e2
        rw [gemm_kernel_of_pos A B C ⟨hr, hc⟩]
        rw [runTasks_getD_frame]
        · exact getD_set_self C _ 0 hj
        · intro rc hrc h1 h2 habs
          obtain ⟨x, y⟩ := rc
          obtain ⟨e1, e2⟩ := flat_inj hc h2 habs
          subst e1
          subst e2
          exact (List.nodup_cons.1 hnd).1 hrc
      · -- the coordinate in question sits in the tail
        have hne : (a, b) ≠ (row, col) :=
          fun he => (List.nodup_cons.1 hnd).1 (he ▸ hmem')
        have hpres : (gemm_kernel p A B a b C).getD (row * p.n + col) 0
            = C.getD (row * p.n + col) 0 := by
          apply gemm_kernel_getD_ne
          by_cases hg : a < p.m ∧ b < p.n
          · refine Or.inr fun habs => ?_
            obtain ⟨e1, e2⟩ := flat_inj hc hg.2 habs
            subst e1
            subst e2
            exact hne rfl
          · exact Or.inl hg
        rw [ih _ (List.nodup_cons.1 hnd).2 hmem'
            (by rw [gemm_kernel_length]; exact hj), hpres]

/-- Out-of-range threads can be dropped from a task list: running the
tasks of any coordinate list equals running only its in-range part. -/
theorem runTasks_filter (p : GemmParams) (A B : List ℚ) (coords : List (Nat × Nat))
    (C : List ℚ) :
    runTasks p A B coords C =
      runTasks p A B
        (coords.filter fun rc => decide (rc.1 < p.m) && decide (rc.2 < p.n)) C := by
  induction coords generalizing C with
  | nil => rfl
  | cons hd tl ih =>
      have step : runTasks p A B (hd :: tl) C
          = runTasks p A B tl (gemm_kernel p A B hd.1 hd.2 C) := rfl
      by_cases hg : hd.1 < p.m ∧ hd.2 < p.n
      · rw [step, List.filter_cons_of_pos (by simp [hg.1, hg.2])]
        exact ih _
      · rw [step, gemm_kernel_of_neg A B C hg,
          List.filter_cons_of_neg (by simpa using fun h1 h2 => hg ⟨h1, h2⟩)]
        exact ih _

/-- Two kernel threads commute: their write sets are disjoint unless
they are the same coordinate, and neither reads the other’s target. -/
theorem gemm_kernel_comm (p : GemmParams) (A B : List ℚ) (rc₁ rc₂ : Nat × Nat)
    (C : List ℚ) :
    gemm_kernel p A B rc₂.1 rc₂.2 (gemm_kernel p A B rc₁.1 rc₁.2 C) =
      gemm_kernel p A B rc₁.1 rc₁.2 (gemm_kernel p A B rc₂.1 rc₂.2 C) := by
  by_cases h₁ : rc₁.1 < p.m ∧ rc₁.2 < p.n
  · by_cases h₂ : rc₂.1 < p.m ∧ rc₂.2 < p.n
    · by_cases heq : rc₁ = rc₂
      · rw [heq]
      · have hne : rc₁.1 * p.n + rc₁.2 ≠ rc₂.1 * p.n + rc₂.2 := by
          intro habs
          obtain ⟨e1, e2⟩ := flat_inj h₁.2 h₂.2 habs
          exact heq (Prod.ext e1 e2)
        rw [gemm_kernel_of_pos A B C h₁, gemm_kernel_of_pos A B C h₂,
          gemm_kernel_of_pos A B _ h₂, gemm_kernel_of_pos A B _ h₁,
          getD_set_ne hne, getD_set_ne (Ne.symm hne),
          List.set_comm _ _ _ hne]
    · rw [gemm_kernel_of_neg A B (gemm_kernel p A B rc₁.1 rc₁.2 C) h₂,
        gemm_kernel_of_neg A B C h₂]
  · rw [gemm_kernel_of_neg A B C h₁,
      gemm_kernel_of_neg A B (gemm_kernel p A B rc₂.1 rc₂.2 C) h₁]

/-! ### Claim theorems -/

/-- C2: at every contraction step `q` the kernel reads the A operand at
flat index `row*k + q` (`transposeA = false`) or `q*m + row`
(`transposeA = true`) and the B operand at `q*n + col`
(`transposeB = false`) or `col*k + q` (`transposeB = true`), and its
accumulator equals the sum over `q < k` of the products of those
reads. -/
theorem gemmSum_indexing (p : GemmParams) (A B : List ℚ) (row col : Nat) :
    (∀ q, a_val p A row q =
        A.getD (if p.transposeA then q * p.m + row else row * p.k + q) 0) ∧
    (∀ q, b_val p B col q =
        B.getD (if p.transposeB then col * p.k + q else q * p.n + col) 0) ∧
    gemmSum p A B row col =
      ∑ q ∈ Finset.range p.k,
        A.getD (if p.transposeA then q * p.m + row else row * p.k + q) 0 *
          B.getD (if p.transposeB then col * p.k + q else q * p.n + col) 0 := by
  refine ⟨a_val_eq_getD p A row, b_val_eq_getD p B col, ?_⟩
  unfold gemmSum
  rw [foldl_range_add, zero_add]
  exact Finset.sum_congr rfl fun q _ => by rw [a_val_eq_getD, b_val_eq_getD]

/-- C3: for an in-range coordinate the kernel writes
`C[row,col] = alpha * sum + beta * C_old[row,col]`, where
`C_old[row,col]` is the value held before the write. -/
theorem gemm_kernel_writeback (p : GemmParams) (A B C : List ℚ) (row col : Nat)
    (hr : row < p.m) (hc : col < p.n) (hC : C.length = p.m * p.n) :
    (gemm_kernel p A B row col C).getD (row * p.n + col) 0 =
      p.alpha * gemmSum p A B row col + p.beta * C.getD (row * p.n + col) 0 := by
  rw [gemm_kernel_of_pos A B C ⟨hr, hc⟩]
  exact getD_set_self C _ 0 (hC ▸ flat_lt hr hc)

/-- Witness for C3 at the harness fixture, coordinate `(0, 1)`. -/
theorem gemm_kernel_writeback_witness :
    (gemm_kernel pFF A_host B_host 0 1 [0, 0, 0, 0]).getD (0 * pFF.n + 1) 0 =
      pFF.alpha * gemmSum pFF A_host B_host 0 1 +
        pFF.beta * ([0, 0, 0, 0] : List ℚ).getD (0 * pFF.n + 1) 0 :=
  gemm_kernel_writeback pFF A_host B_host [0, 0, 0, 0] 0 1
    (by decide) (by decide) (by decide)

/-- C4: a coordinate with `row ≥ m` or `col ≥ n` performs no write — the
buffer is returned unchanged — and no run of any task list ever changes
a cell at flat index `≥ m*n`, so an over-provisioned launch grid never
writes outside `[0,m) × [0,n)`. -/
theorem gemm_kernel_oob (p : GemmParams) (A B C : List ℚ) :
    (∀ row col, p.m ≤ row ∨ p.n ≤ col → gemm_kernel p A B row col C = C) ∧
    ∀ (coords : List (Nat × Nat)) (j : Nat), p.m * p.n ≤ j →
      (runTasks p A B coords C).getD j 0 = C.getD j 0 := by
  constructor
  · intro row col h
    apply gemm_kernel_of_neg
    rintro ⟨h1, h2⟩
    rcases h with h | h <;> omega
  · intro coords j hj
    apply runTasks_getD_frame
    intro rc _ h1 h2
    exact Nat.ne_of_gt (Nat.lt_of_lt_of_le (flat_lt h1 h2) hj)

/-- Witness for C4: the out-of-range coordinate `(2, 0)` of the 2×2
fixture leaves `C` untouched, and a launch containing the out-of-range
coordinate `(5, 7)` leaves the cell at flat index 7 unchanged. -/
theorem gemm_kernel_oob_witness :
    gemm_kernel pFF A_host B_host 2 0 [0, 0, 0, 0] = [0, 0, 0, 0] ∧
      (runTasks pFF A_host B_host [(5, 7)] [0, 0, 0, 0]).getD 7 0 =
        ([0, 0, 0, 0] : List ℚ).getD 7 0 :=
  ⟨(gemm_kernel_oob pFF A_host B_host [0, 0, 0, 0]).1 2 0 (Or.inl (by decide)),
    (gemm_kernel_oob pFF A_host B_host [0, 0, 0, 0]).2 [(5, 7)] 7 (by decide)⟩

/-- C5: an in-range thread's whole effect is one `List.set` at its own
flat index; every other cell reads unchanged, and the value it writes
depends on no cell of `C` other than `C[row,col]` itself. -/
theorem gemm_kernel_single_write (p : GemmParams) (A B : List ℚ) (row col : Nat)
    (hr : row < p.m) (hc : col < p.n) :
    (∀ (C : List ℚ) (j : Nat), j ≠ row * p.n + col →
        (gemm_kernel p A B row col C).getD j 0 = C.getD j 0) ∧
    (∀ C : List ℚ, gemm_kernel p A B row col C =
        C.set (row * p.n + col)
          (p.alpha * gemmSum p A B row col + p.beta * C.getD (row * p.n + col) 0)) ∧
    ∀ C C' : List ℚ,
      C.getD (row * p.n + col) 0 = C'.getD (row * p.n + col) 0 →
      C.length = p.m * p.n → C'.length = p.m * p.n →
      (gemm_kernel p A B row col C).getD (row * p.n + col) 0 =
        (gemm_kernel p A B row col C').getD (row * p.n + col) 0 := by
  refine ⟨fun C j hj => gemm_kernel_getD_ne p A B C row col j (Or.inr hj),
    fun C => gemm_kernel_of_pos A B C ⟨hr, hc⟩, fun C C' hsame hC hC' => ?_⟩
  rw [gemm_kernel_writeback p A B C row col hr hc hC,
    gemm_kernel_writeback p A B C' row col hr hc hC', hsame]

/-- Witness for C5 at the harness fixture, coordinate `(1, 0)`. -/
theorem gemm_kernel_single_write_witness :
    (gemm_kernel pFF A_host B_host 1 0 [0, 0, 0, 0]).getD 3 0 =
      ([0, 0, 0, 0] : List ℚ).getD 3 0 :=
  (gemm_kernel_single_write pFF A_host B_host 1 0 (by decide) (by decide)).1
    [0, 0, 0, 0] 3 (by decide)

/-- C6: executing the per-coordinate tasks of the full `m × n` grid in
any permuted order yields the same final buffer as row-major order. -/
theorem runTasks_order_invariant (p : GemmParams) (A B C : List ℚ)
    (coords : List (Nat × Nat)) (hperm : coords.Perm (gridCoords p.m p.n)) :
    runTasks p A B coords C = runTasks p A B (gridCoords p.m p.n) C := by
  unfold runTasks
  exact List.Perm.foldl_eq' hperm
    (fun rc₁ _ rc₂ _ acc => gemm_kernel_comm p A B rc₁ rc₂ acc) C

/-- Witness for C6: a shuffled order of the four fixture coordinates. -/
theorem runTasks_order_invariant_witness :
    runTasks pFF A_host B_host [(1, 1), (0, 0), (1, 0), (0, 1)] [0, 0, 0, 0] =
      runTasks pFF A_host B_host (gridCoords pFF.m pFF.n) [0, 0, 0, 0] :=
  runTasks_order_invariant pFF A_host B_host [0, 0, 0, 0]
    [(1, 1), (0, 0), (1, 0), (0, 1)] (by decide)

/-- With `alpha = 0`, one full-grid run scales the whole output buffer
by `beta`, independently of the operand buffers. -/
theorem runTasks_alpha_zero (p : GemmParams) (A B C : List ℚ)
    (ha : p.alpha = 0) (hC : C.length = p.m * p.n) :
    runTasks p A B (gridCoords p.m p.n) C = C.map fun x => p.beta * x := by
  apply List.ext_getElem
  · rw [runTasks_length, List.length_map]
  · intro j h₁ h₂
    have hL : j < C.length := by rw [runTasks_length] at h₁; exact h₁
    have hjmn : j < p.m * p.n := hC ▸ hL
    have hn : 0 < p.n := by
      rcases Nat.eq_zero_or_pos p.n with h | h
      · rw [h, Nat.mul_zero] at hjmn; exact absurd hjmn (Nat.not_lt_zero j)
      · exact h
    have hc : j % p.n < p.n := Nat.mod_lt _ hn
    have hr : j / p.n < p.m := (Nat.div_lt_iff_lt_mul hn).2 hjmn
    have hflat : j / p.n * p.n + j % p.n = j := by
      rw [Nat.mul_comm]; exact Nat.div_add_mod j p.n
    rw [List.getElem_map, ← List.getD_eq_getElem _ 0 h₁,
      ← List.getD_eq_getElem _ 0 hL, ← hflat,
      runTasks_getD_write p A B _ C _ _ (nodup_gridCoords p.m p.n)
        (mem_gridCoords.2 ⟨hr, hc⟩) hr hc (by rw [hflat]; exact hL),
      ha, zero_mul, zero_add]

/-- C7: with `alpha = 0` a full-grid run leaves `C` equal to the
element-wise scaling `beta * C`, whatever `A` and `B` hold: two runs
with different operands but the same `C` produce the same result. -/
theorem alpha_zero_beta_scaling (p : GemmParams) (A B C : List ℚ)
    (ha : p.alpha = 0) (hC : C.length = p.m * p.n) :
    runTasks p A B (gridCoords p.m p.n) C = (C.map fun x => p.beta * x) ∧
    ∀ A' B' : List ℚ, runTasks p A' B' (gridCoords p.m p.n) C =
      runTasks p A B (gridCoords p.m p.n) C := by
  refine ⟨runTasks_alpha_zero p A B C ha hC, fun A' B' => ?_⟩
  rw [runTasks_alpha_zero p A B C ha hC, runTasks_alpha_zero p A' B' C ha hC]

/-- The parameters used by the C7 witness: the fixture shape with
`alpha = 0`, `beta = 3`. -/
def pScale : GemmParams :=
  { m := 2, n := 2, k := 2, alpha := 0, beta := 3,
    transposeA := false, transposeB := false }

/-- Witness for C7: with `alpha = 0`, `beta = 3`, a full-grid run over
`C = [1,2,3,4]` triples every element regardless of the operands. -/
theorem alpha_zero_beta_scaling_witness :
    runTasks pScale A_host B_host (gridCoords pScale.m pScale.n) [1, 2, 3, 4] =
      (([1, 2, 3, 4] : List ℚ).map fun x => pScale.beta * x) ∧
    ∀ A' B' : List ℚ,
      runTasks pScale A' B' (gridCoords pScale.m pScale.n) [1, 2, 3, 4] =
        runTasks pScale A_host B_host (gridCoords pScale.m pScale.n) [1, 2, 3, 4] :=
  alpha_zero_beta_scaling pScale A_host B_host [1, 2, 3, 4] rfl (by decide)

/-- The in-range part of the 16×16 thread grid that `run_gemm` launches
for the 2×2 fixture: exactly the four output coordinates. -/
theorem launched_filter_eval (transA transB : Bool) :
    (launchedCoords (fixtureParams transA transB).m (fixtureParams transA transB).n).filter
      (fun rc => decide (rc.1 < (fixtureParams transA transB).m) &&
        decide (rc.2 < (fixtureParams transA transB).n))
      = [(0, 0), (0, 1), (1, 0), (1, 1)] := by
  cases transA <;> cases transB <;> decide

/-- Evaluation of `run_gemm(False, False)`: it returns `A·B = [[19,22],[43,50]]`. -/
theorem run_gemm_eval_ff : run_gemm false false = expected_AB := by
  rw [run_gemm, kernelLaunch, runTasks_filter, launched_filter_eval]
  norm_num [runTasks, gemm_kernel, gemmSum, a_val, b_val, fixtureParams, A_host, B_host,
    List.range_succ, expected_AB, List.replicate, List.foldl]

/-- Evaluation of `run_gemm(True, False)`: it returns `Aᵀ·B = [[26,30],[38,44]]`. -/
theorem run_gemm_eval_tf : run_gemm true false = expected_ATB := by
  rw [run_gemm, kernelLaunch, runTasks_filter, launched_filter_eval]
  norm_num [runTasks, gemm_kernel, gemmSum, a_val, b_val, fixtureParams, A_host, B_host,
    List.range_succ, expected_ATB, List.replicate, List.foldl]

/-- Evaluation of `run_gemm(False, True)`: it returns `A·Bᵀ = [[17,23],[39,53]]`. -/
theorem run_gemm_eval_ft : run_gemm false true = expected_ABT := by
  rw [run_gemm, kernelLaunch, runTasks_filter, launched_filter_eval]
  norm_num [runTasks, gemm_kernel, gemmSum, a_val, b_val, fixtureParams, A_host, B_host,
    List.range_succ, expected_ABT, List.replicate, List.foldl]

/-- Evaluation of `run_gemm(True, True)`: it returns `Aᵀ·Bᵀ = [[23,31],[34,46]]`. -/
theorem run_gemm_eval_tt : run_gemm true true = expected_ATBT := by
  rw [run_gemm, kernelLaunch, runTasks_filter, launched_filter_eval]
  norm_num [runTasks, gemm_kernel, gemmSum, a_val, b_val, fixtureParams, A_host, B_host,
    List.range_succ, expected_ATBT, List.replicate, List.foldl]

/-- A matrix's max absolute difference from itself is `0 < tol`. -/
theorem maxAbsDiff_self_lt_tol (xs : List ℚ) : maxAbsDiff xs xs < tol := by
  have h : ∀ acc : ℚ, acc < tol →
      (List.zipWith (fun a b => |a - b|) xs xs).foldl max acc < tol := by
    induction xs with
    | nil => intro acc hacc; exact hacc
    | cons x xs ih =>
        intro acc hacc
        simp only [List.zipWith_cons_cons, List.foldl_cons, sub_self, abs_zero]
        exact ih _ (by rw [max_lt_iff]; exact ⟨hacc, by norm_num [tol]⟩)
  exact h 0 (by norm_num [tol])

/-- C1: on the fixed fixture `A = [[1,2],[3,4]]`, `B = [[5,6],[7,8]]`,
`m = n = k = 2`, `alpha = 1`, `beta = 0`, zero-initialized `C`, the
kernel run over the full output grid returns exactly the expected
matrix of each of the four transpose configurations, with every
element-wise absolute difference strictly below `1e-4`. -/
theorem test_gemm_fixture_correct :
    (run_gemm false false = expected_AB ∧
      maxAbsDiff (run_gemm false false) expected_AB < tol) ∧
    (run_gemm true false = expected_ATB ∧
      maxAbsDiff (run_gemm true false) expected_ATB < tol) ∧
    (run_gemm false true = expected_ABT ∧
      maxAbsDiff (run_gemm false true) expected_ABT < tol) ∧
    (run_gemm true true = expected_ATBT ∧
      maxAbsDiff (run_gemm true true) expected_ATBT < tol) :=
  ⟨⟨run_gemm_eval_ff, run_gemm_eval_ff ▸ maxAbsDiff_self_lt_tol _⟩,
    ⟨run_gemm_eval_tf, run_gemm_eval_tf ▸ maxAbsDiff_self_lt_tol _⟩,
    ⟨run_gemm_eval_ft, run_gemm_eval_ft ▸ maxAbsDiff_self_lt_tol _⟩,
    ⟨run_gemm_eval_tt, run_gemm_eval_tt ▸ maxAbsDiff_self_lt_tol _⟩⟩

/-- C8: the harness always builds all four per-configuration reports
(output, expected, max-difference), in source order, before the single
aggregate verdict; the verdict is PASS exactly when every one of the
four max differences is strictly below `1e-4`, so a difference exactly
equal to `1e-4` yields FAIL. -/
theorem harness_reporting :
    test_gemm.1 = [configReport false false expected_AB,
      configReport true false expected_ATB,
      configReport false true expected_ABT,
      configReport true true expected_ATBT] ∧
    (test_gemm.2 = true ↔ ∀ r ∈ test_gemm.1, r.maxDiff < tol) ∧
    (∀ ds : List ℚ, allSmallTestsPass ds = true ↔ ∀ d ∈ ds, d < tol) ∧
    allSmallTestsPass [0, 0, 0, tol] = false := by
  have hchar : ∀ ds : List ℚ, allSmallTestsPass ds = true ↔ ∀ d ∈ ds, d < tol := by
    intro ds
    simp [allSmallTestsPass, List.all_eq_true]
  have h1 : test_gemm.1 = [configReport false false expected_AB,
      configReport true false expected_ATB,
      configReport false true expected_ABT,
      configReport true true expected_ATBT] := rfl
  have h2 : test_gemm.2 = allSmallTestsPass
      [(configReport false false expected_AB).maxDiff,
        (configReport true false expected_ATB).maxDiff,
        (configReport false true expected_ABT).maxDiff,
        (configReport true true expected_ATBT).maxDiff] := by
    simp only [test_gemm]
  refine ⟨h1, ?_, hchar, ?_⟩
  · rw [h2, hchar, h1]
    simp [List.forall_mem_cons]
  · cases hb : allSmallTestsPass [0, 0, 0, tol] with
    | false => rfl
    | true => exact absurd ((hchar _).1 hb tol (by simp)) (lt_irrefl tol)

/-- Witness for C8: the verdict characterization instantiated at the
empty difference list. -/
theorem harness_reporting_witness :
    allSmallTestsPass [] = true ↔ ∀ d ∈ ([] : List ℚ), d < tol :=
  harness_reporting.2.2.1 []

/-- A launch of the fixture parameters over a `C` buffer of length 3 —
inconsistent with `m * n = 4` — still runs every task: the three
in-range writes that fall inside the buffer land, producing
`[19, 22, 43]`. -/
theorem mismatch_launch_eval :
    kernelLaunch pFF A_host B_host [0, 0, 0] = [19, 22, 43] := by
  rw [kernelLaunch, (by rfl : pFF = fixtureParams false false), runTasks_filter,
    launched_filter_eval]
  norm_num [runTasks, gemm_kernel, gemmSum, a_val, b_val, fixtureParams, A_host, B_host,
    List.range_succ, List.foldl]

/-- C9 counterexample: an invocation whose buffer lengths violate the
`length = rows × cols` invariant (here `C` has 3 elements instead of
`m * n = 4`) is *not* rejected before tasks launch: the run modifies
`C`, contradicting the claimed fail-fast behaviour. -/
theorem kernelLaunch_dimension_mismatch_cex :
    ¬(kernelLaunch pFF A_host B_host [0, 0, 0] = [0, 0, 0]) := by
  rw [kernelLaunch, (by rfl : pFF = fixtureParams false false), runTasks_filter,
    launched_filter_eval]
  norm_num [runTasks, gemm_kernel, gemmSum, a_val, b_val, fixtureParams, A_host, B_host,
    List.range_succ, List.foldl]

/-- C9 (amended): the launch path performs no validation of the buffer
lengths against `m`, `n`, `k`: an invocation with an inconsistent `C`
buffer is launched in full, its in-range writes land, and `C` is
modified (no rejection, no fail-fast). -/
theorem kernelLaunch_no_validation :
    kernelLaunch pFF A_host B_host [0, 0, 0] = [19, 22, 43] ∧
      kernelLaunch pFF A_host B_host [0, 0, 0] ≠ [0, 0, 0] := by
  refine ⟨mismatch_launch_eval, ?_⟩
  rw [mismatch_launch_eval]
  norm_num

/-- The two operand reads of one contraction step stay inside `m*k`
resp. `k*n` for every in-range coordinate and step. -/
theorem kernel_read_indices_bound (p : GemmParams) {row col q : Nat}
    (hr : row < p.m) (hc : col < p.n) (hq : q < p.k) :
    (if p.transposeA then q * p.m + row else row * p.k + q) < p.m * p.k ∧
    (if p.transposeB then col * p.k + q else q * p.n + col) < p.k * p.n := by
  constructor
  · by_cases h : p.transposeA
    · rw [if_pos h, Nat.mul_comm p.m p.k]
      exact flat_lt hq hr
    · rw [if_neg h]
      exact flat_lt hr hq
  · by_cases h : p.transposeB
    · rw [if_pos h, Nat.mul_comm p.k p.n]
      exact flat_lt hc hq
    · rw [if_neg h]
      exact flat_lt hq hc

/-- The fallible accumulation loop agrees with the total one whenever
every listed read is in bounds. -/
theorem foldl_checked_eq (p : GemmParams) (A B : List ℚ) (row col : Nat)
    (qs : List Nat) (s : ℚ)
    (h : ∀ q ∈ qs,
      (if p.transposeA then q * p.m + row else row * p.k + q) < A.length ∧
      (if p.transposeB then col * p.k + q else q * p.n + col) < B.length) :
    qs.foldl
      (fun acc q =>
        acc.bind fun s =>
          (A[if p.transposeA then q * p.m + row else row * p.k + q]?).bind fun a =>
            (B[if p.transposeB then col * p.k + q else q * p.n + col]?).bind fun b =>
              some (s + a * b))
      (some s)
      = some (qs.foldl (fun acc q => acc + a_val p A row q * b_val p B col q) s) := by
  induction qs generalizing s with
  | nil => rfl
  | cons q qs ih =>
      obtain ⟨hA, hB⟩ := h q (List.mem_cons_self _ _)
      simp only [List.foldl_cons, Option.some_bind, List.getElem?_eq_getElem hA,
        List.getElem?_eq_getElem hB]
      rw [ih _ fun x hx => h x (List.mem_cons_of_mem _ hx),
        a_val_eq_getD, b_val_eq_getD,
        List.getD_eq_getElem _ _ hA, List.getD_eq_getElem _ _ hB]

/-- C10: under the shape invariants (`A` of length `m*k`, `B` of length
`k*n`, `C` of length `m*n`) every memory access of the kernel at an
in-range coordinate is in bounds — each A index is below `A.length`,
each B index below `B.length`, the single C index below `C.length` —
and the fallible-indexing kernel never returns `none`, agreeing with
the total model. -/
theorem gemm_kernel_memory_safe (p : GemmParams) (A B C : List ℚ) (row col : Nat)
    (hA : A.length = p.m * p.k) (hB : B.length = p.k * p.n) (hC : C.length = p.m * p.n)
    (hr : row < p.m) (hc : col < p.n) :
    (∀ q, q < p.k →
        (if p.transposeA then q * p.m + row else row * p.k + q) < A.length ∧
        (if p.transposeB then col * p.k + q else q * p.n + col) < B.length) ∧
    row * p.n + col < C.length ∧
    gemm_kernelChecked p A B row col C = some (gemm_kernel p A B row col C) := by
  have hidx : ∀ q, q < p.k →
      (if p.transposeA then q * p.m + row else row * p.k + q) < A.length ∧
      (if p.transposeB then col * p.k + q else q * p.n + col) < B.length := by
    intro q hq
    obtain ⟨h1, h2⟩ := kernel_read_indices_bound p hr hc hq
    exact ⟨lt_of_lt_of_eq h1 hA.symm, lt_of_lt_of_eq h2 hB.symm⟩
  have hCidx : row * p.n + col < C.length := lt_of_lt_of_eq (flat_lt hr hc) hC.symm
  have hsum : gemmSumChecked p A B row col = some (gemmSum p A B row col) := by
    unfold gemmSumChecked gemmSum
    exact foldl_checked_eq p A B row col (List.range p.k) 0
      fun q hq => hidx q (List.mem_range.1 hq)
  refine ⟨hidx, hCidx, ?_⟩
  unfold gemm_kernelChecked
  rw [if_pos ⟨hr, hc⟩]
  simp only [hsum, Option.some_bind, List.getElem?_eq_getElem hCidx]
  rw [gemm_kernel_of_pos A B C ⟨hr, hc⟩, List.getD_eq_getElem _ _ hCidx]

/-- Witness for C10: the fallible kernel succeeds on the fixture at
coordinate `(0, 0)`. -/
theorem gemm_kernel_memory_safe_witness :
    gemm_kernelChecked pFF A_host B_host 0 0 [0, 0, 0, 0] =
      some (gemm_kernel pFF A_host B_host 0 0 [0, 0, 0, 0]) :=
  (gemm_kernel_memory_safe pFF A_host B_host [0, 0, 0, 0] 0 0
    (by decide) (by decide) (by decide) (by decide) (by decide)).2.2
